import Mathlib

/-!
Verification of the Riemann Surface Encryption Visualiser (`app.js`).

The JavaScript source is shallowly embedded: JS numbers are modelled by the
real numbers `ℝ` (the transforms are built from exact integer arithmetic and
transcendental functions, so the real-number reading is the intended
semantics); text strings are modelled by their lists of UTF-16 character
codes, as that is the only view `charCodeAt` exposes; the truncating JS
remainder operator `%` on integers is `Int.tmod` (sign follows the
dividend); `Math.atan2(y, x)` is the angle of the point `(x, y)` in
`(-π, π]`, which is Mathlib's `Complex.arg ⟨x, y⟩`.
-/

/-- JS `Math.atan2 y x`: the angle of the point `(x, y)` in `(-π, π]`,
with `atan2 0 0 = 0`.  This is exactly Mathlib's `Complex.arg ⟨x, y⟩`. -/
noncomputable def atan2 (y x : ℝ) : ℝ := Complex.arg ⟨x, y⟩

/-- JS `Math.hypot x y = sqrt (x² + y²)`. -/
noncomputable def hypot (x y : ℝ) : ℝ := Real.sqrt (x ^ 2 + y ^ 2)

namespace App

/-- A point `{x, y, z}` produced by the transforms (the spec's `Point3`). -/
@[ext]
structure Point3 where
  x : ℝ
  y : ℝ
  z : ℝ

/-- The source's minimal complex number class (`class Complex` in `app.js`):
a pair of JS numbers `re`, `im`. -/
@[ext]
structure Complex where
  re : ℝ
  im : ℝ

/-- `add(other) { return new Complex(this.re + other.re, this.im + other.im); }` -/
noncomputable def Complex.add (a b : Complex) : Complex :=
  ⟨a.re + b.re, a.im + b.im⟩

/-- `sub(other) { return new Complex(this.re - other.re, this.im - other.im); }` -/
noncomputable def Complex.sub (a b : Complex) : Complex :=
  ⟨a.re - b.re, a.im - b.im⟩

/-- `mul(other) { return new Complex(this.re*other.re - this.im*other.im,
this.re*other.im + this.im*other.re); }` -/
noncomputable def Complex.mul (a b : Complex) : Complex :=
  ⟨a.re * b.re - a.im * b.im, a.re * b.im + a.im * b.re⟩

/-- `pow(n)`: `result = new Complex(1, 0)` then `n` iterations of
`result = result.mul(this)`. -/
noncomputable def Complex.pow (a : Complex) : ℕ → Complex
  | 0 => ⟨1, 0⟩
  | n + 1 => (Complex.pow a n).mul a

/-- `sqrt()`: principal square root via polar form, exactly as the source
writes it: `r = hypot(re, im)`, `sqrtMag = sqrt r`,
`theta = atan2(im, re)`, `halfTheta = theta / 2`, result
`(sqrtMag·cos halfTheta, sqrtMag·sin halfTheta)`. -/
noncomputable def Complex.sqrt (a : Complex) : Complex :=
  let r := hypot a.re a.im
  let sqrtMag := Real.sqrt r
  let theta := atan2 a.im a.re
  let halfTheta := theta / 2
  ⟨sqrtMag * Real.cos halfTheta, sqrtMag * Real.sin halfTheta⟩

/-- `encryptToTorus(text, key1, mod1, key2, mod2)` from `app.js`: one point
per character code, `theta = ((code*key1) % mod1) / mod1 * 2π`,
`phi = ((code*key2) % mod2) / mod2 * 2π`,
`(x, y, z) = ((R + r·cos phi)·cos theta, (R + r·cos phi)·sin theta,
r·sin phi)` with `R = 3`, `r = 1`. -/
noncomputable def encryptToTorus (text : List ℤ) (key1 mod1 key2 mod2 : ℤ) :
    List Point3 :=
  let R : ℝ := 3
  let r : ℝ := 1
  text.map fun code =>
    let theta : ℝ := (((code * key1).tmod mod1 : ℤ) : ℝ) / (mod1 : ℝ) * 2 * Real.pi
    let phi : ℝ := (((code * key2).tmod mod2 : ℤ) : ℝ) / (mod2 : ℝ) * 2 * Real.pi
    { x := (R + r * Real.cos phi) * Real.cos theta
      y := (R + r * Real.cos phi) * Real.sin theta
      z := r * Real.sin phi }

/-- `encryptToPolynomial(text, key, modVal)` from `app.js`: per character
code `c`, `z = new Complex(c, (c*key) % modVal)`,
`w = z.pow(3).sub(new Complex(1, 0)).sqrt()`, output point
`(z.re·0.05, z.im·0.05, w.re·0.05)`. -/
noncomputable def encryptToPolynomial (text : List ℤ) (key modVal : ℤ) :
    List Point3 :=
  text.map fun (c : ℤ) =>
    let real : ℝ := (c : ℝ)
    let imag : ℝ := (((c * key).tmod modVal : ℤ) : ℝ)
    let z : Complex := ⟨real, imag⟩
    let w := ((z.pow 3).sub ⟨1, 0⟩).sqrt
    let scale : ℝ := 0.05
    { x := z.re * scale, y := z.im * scale, z := w.re * scale }

/-! ### Interaction controller

The mouse handlers of `app.js` (lines 139–162) keep four pieces of state:
`rotX`, `rotY`, `dragging` and `lastMouse`.  They are embedded as a state
record and one step function per browser event. -/

/-- The mutable state the mouse handlers read and write:
`rotX = 0.4`, `rotY = 0.8`, `dragging = false`, `lastMouse = {x: 0, y: 0}`
initially. -/
structure OrbitState where
  rotX : ℝ
  rotY : ℝ
  dragging : Bool
  lastX : ℝ
  lastY : ℝ

/-- The pointer events the canvas listens for, with the client coordinates
carried by `mousedown` and `mousemove`. -/
inductive PointerEvent where
  | down (x y : ℝ)
  | move (x y : ℝ)
  | up
  | leave

/-- The initial values of the interaction state in `app.js`. -/
noncomputable def initOrbit : OrbitState :=
  { rotX := 0.4, rotY := 0.8, dragging := false, lastX := 0, lastY := 0 }

/-- One event handler dispatch, exactly as the listeners are written:
`mousedown` records the position and sets `dragging`; `mousemove` returns
early unless dragging, otherwise adds `dx·0.005` to `rotY` and `dy·0.005`
to `rotX`, clamps `rotX` to `[-(π/2 - 0.1), π/2 - 0.1]` via
`Math.max(-limit, Math.min(limit, rotX))`, and records the position;
`mouseup` and `mouseleave` clear `dragging`. -/
noncomputable def handleEvent (s : OrbitState) : PointerEvent → OrbitState
  | .down x y => { s with dragging := true, lastX := x, lastY := y }
  | .move x y =>
      if s.dragging then
        let dx := x - s.lastX
        let dy := y - s.lastY
        let rotY1 := s.rotY + dx * 0.005
        let rotX0 := s.rotX + dy * 0.005
        let limit := Real.pi / 2 - 0.1
        let rotX1 := max (-limit) (min limit rotX0)
        { s with rotY := rotY1, rotX := rotX1, lastX := x, lastY := y }
      else s
  | .up => { s with dragging := false }
  | .leave => { s with dragging := false }

/-- Run a sequence of pointer events from a starting state. -/
noncomputable def runEvents (s : OrbitState) (evs : List PointerEvent) : OrbitState :=
  evs.foldl handleEvent s

/-! ### Object-level view of the `Complex` class

The claim that no `Complex` operation mutates an existing value is about the
JS object store, so the class is also embedded against an explicit store:
a heap is the list of `Complex` objects allocated so far, a reference is an
index into it, `new Complex(re, im)` appends a cell, and each method reads
`this`/`other` fields from the heap and allocates its result, exactly
mirroring the method bodies. -/

/-- The store of allocated `Complex` objects: cell `i` holds `(re, im)`. -/
abbrev Heap := List (ℝ × ℝ)

/-- A reference to a `Complex` object: its index in the heap. -/
abbrev Ref := ℕ

/-- `new Complex(re, im)`: append a fresh cell, return the heap and the
reference to the new cell. -/
def newComplex (h : Heap) (re im : ℝ) : Heap × Ref :=
  (h ++ [(re, im)], h.length)

/-- Read the `re` field of the object at reference `r`. -/
def reOf (h : Heap) (r : Ref) : ℝ := (h.getD r (0, 0)).1

/-- Read the `im` field of the object at reference `r`. -/
def imOf (h : Heap) (r : Ref) : ℝ := (h.getD r (0, 0)).2

namespace HComplex

/-- Heap-level `add`: field reads on `this` and `other`, then
`new Complex(this.re + other.re, this.im + other.im)`. -/
noncomputable def add (h : Heap) (self other : Ref) : Heap × Ref :=
  newComplex h (reOf h self + reOf h other) (imOf h self + imOf h other)

/-- Heap-level `sub`. -/
noncomputable def sub (h : Heap) (self other : Ref) : Heap × Ref :=
  newComplex h (reOf h self - reOf h other) (imOf h self - imOf h other)

/-- Heap-level `mul`. -/
noncomputable def mul (h : Heap) (self other : Ref) : Heap × Ref :=
  newComplex h
    (reOf h self * reOf h other - imOf h self * imOf h other)
    (reOf h self * imOf h other + imOf h self * reOf h other)

/-- The loop of `pow`: `n` iterations of `result = result.mul(this)`. -/
noncomputable def powLoop (self : Ref) : Heap → Ref → ℕ → Heap × Ref
  | h, result, 0 => (h, result)
  | h, result, n + 1 =>
      let hr := mul h result self
      powLoop self hr.1 hr.2 n

/-- Heap-level `pow(n)`: `result = new Complex(1, 0)` then the loop. -/
noncomputable def pow (h : Heap) (self : Ref) (n : ℕ) : Heap × Ref :=
  let hr := newComplex h 1 0
  powLoop self hr.1 hr.2 n

/-- Heap-level `sqrt`: field reads on `this` only, then one allocation. -/
noncomputable def sqrt (h : Heap) (self : Ref) : Heap × Ref :=
  let r := hypot (reOf h self) (imOf h self)
  let sqrtMag := Real.sqrt r
  let theta := atan2 (imOf h self) (reOf h self)
  let halfTheta := theta / 2
  newComplex h (sqrtMag * Real.cos halfTheta) (sqrtMag * Real.sin halfTheta)

end HComplex

/-! ### The recompute operation

`updateVisualisation` (lines 301–326) pulls the input text, the six numeric
parameters and the two visibility checkboxes, replaces `torusData` and
`polyData`, and writes a status message to the status element.  It has no
`return` statement, so the value handed back to its caller is `undefined`;
that value is modelled at the type the spec posits for it,
`Option StatusSummary`, and is `none`. -/

/-- The status summary the spec says `recompute()` returns:
`{characterCount, activeSurfaceNames}`. -/
structure StatusSummary where
  characterCount : ℕ
  activeSurfaceNames : List String
deriving DecidableEq

/-- The program state `updateVisualisation` writes: the two data arrays,
the two visibility flags and the status element's text. -/
structure VisState where
  torusData : List Point3
  polyData : List Point3
  showTorus : Bool
  showComplex : Bool
  statusText : String

/-- `updateVisualisation` from `app.js`, as a function of the values it
pulls from the page (text codes, the six parameters, the two checkboxes) to
the state it writes, paired with the value it returns to its caller — the
function body contains no `return` statement, so that value is `none`. -/
noncomputable def updateVisualisation (text : List ℤ)
    (key1 mod1 key2 mod2 key3 mod3 : ℤ) (sTorus sComplex : Bool) :
    VisState × Option StatusSummary :=
  let torusData : List Point3 :=
    if sTorus ∧ 0 < text.length then encryptToTorus text key1 mod1 key2 mod2 else []
  let polyData : List Point3 :=
    if sComplex ∧ 0 < text.length then encryptToPolynomial text key3 mod3 else []
  let surfaces : List String :=
    (if sTorus then ["torus"] else []) ++
      (if sComplex then ["polynomial surface"] else [])
  let statusText : String :=
    if 0 < text.length then
      "Encoded " ++ toString text.length ++ " character" ++
        (if text.length = 1 then "" else "s") ++ " on " ++
        String.intercalate " and " surfaces ++ "."
    else
      "Enter some text and click \"Encrypt & Visualise\"."
  (⟨torusData, polyData, sTorus, sComplex, statusText⟩, none)

end App

/-! ## Helper lemmas -/

/-- `Math.hypot re im` is the modulus of the Mathlib complex number
`re + im·I`. -/
lemma hypot_eq_complexAbs (x y : ℝ) : hypot x y = Complex.abs ⟨x, y⟩ := by
  rw [hypot, Complex.abs_apply, Complex.normSq_mk]
  ring_nf

/-- The source's `sqrt` written in terms of the modulus and argument of
the corresponding Mathlib complex number. -/
lemma app_sqrt_eq (z : App.Complex) :
    App.Complex.sqrt z =
      ⟨Real.sqrt (Complex.abs ⟨z.re, z.im⟩) *
          Real.cos (Complex.arg ⟨z.re, z.im⟩ / 2),
        Real.sqrt (Complex.abs ⟨z.re, z.im⟩) *
          Real.sin (Complex.arg ⟨z.re, z.im⟩ / 2)⟩ := by
  rw [App.Complex.sqrt, hypot_eq_complexAbs]
  rfl

/-- The source's `sqrt` on a complex value that is a non-negative real:
the argument is `0`, so the result is the real square root. -/
lemma app_sqrt_nonneg_real (x : ℝ) (hx : 0 ≤ x) :
    App.Complex.sqrt ⟨x, 0⟩ = ⟨Real.sqrt x, 0⟩ := by
  have h1 : hypot x 0 = x := by
    rw [hypot]
    norm_num
    exact Real.sqrt_sq hx
  have h2 : atan2 0 x = 0 := by
    rw [atan2]
    have hc : (⟨x, 0⟩ : Complex) = ((x : ℝ) : ℂ) := rfl
    rw [hc]
    exact Complex.arg_ofReal_of_nonneg hx
  rw [App.Complex.sqrt]
  simp only [h1, h2]
  norm_num

/-! ## Claims -/

/-- C1: for every text and integer keys with `mod1, mod2 ≥ 1`,
`encryptToTorus` returns one point per character, in input order, with the
`i`-th point computed from the `i`-th code `c` by
`θ = 2π·((c·key1) mod mod1)/mod1`, `φ = 2π·((c·key2) mod mod2)/mod2`,
`(x, y, z) = ((R + r·cos φ)·cos θ, (R + r·cos φ)·sin θ, r·sin φ)` with
`R = 3`, `r = 1`; and on `text = "AB"` (codes 65, 66) with
`key1 = 3, mod1 = 5, key2 = 2, mod2 = 7` the output equals the
hand-computed reference points exactly (so in particular within `1e-9`). -/
theorem c1_torus_pointwise_formula :
    (∀ (text : List ℤ) (key1 mod1 key2 mod2 : ℤ), 1 ≤ mod1 → 1 ≤ mod2 →
      (App.encryptToTorus text key1 mod1 key2 mod2).length = text.length ∧
      ∀ i (hi : i < text.length),
        (App.encryptToTorus text key1 mod1 key2 mod2)[i]? =
          some { x := (3 + 1 * Real.cos (2 * Real.pi * (((text[i] * key2).tmod mod2 : ℤ) : ℝ) / (mod2 : ℝ))) * Real.cos (2 * Real.pi * (((text[i] * key1).tmod mod1 : ℤ) : ℝ) / (mod1 : ℝ)),
                 y := (3 + 1 * Real.cos (2 * Real.pi * (((text[i] * key2).tmod mod2 : ℤ) : ℝ) / (mod2 : ℝ))) * Real.sin (2 * Real.pi * (((text[i] * key1).tmod mod1 : ℤ) : ℝ) / (mod1 : ℝ)),
                 z := 1 * Real.sin (2 * Real.pi * (((text[i] * key2).tmod mod2 : ℤ) : ℝ) / (mod2 : ℝ)) }) ∧
    App.encryptToTorus [65, 66] 3 5 2 7 =
      [⟨3 + Real.cos (8 * Real.pi / 7), 0, Real.sin (8 * Real.pi / 7)⟩,
        ⟨(3 + Real.cos (12 * Real.pi / 7)) * Real.cos (6 * Real.pi / 5),
          (3 + Real.cos (12 * Real.pi / 7)) * Real.sin (6 * Real.pi / 5),
          Real.sin (12 * Real.pi / 7)⟩] := by
  constructor
  · intro text key1 mod1 key2 mod2 h1 h2
    constructor
    · simp [App.encryptToTorus]
    · intro i hi
      rw [App.encryptToTorus]
      simp only [List.getElem?_map, List.getElem?_eq_getElem hi, Option.map_some']
      congr 2 <;> ring_nf
  · have e1 : ((65 * 3 : ℤ).tmod 5) = 0 := by decide
    have e2 : ((65 * 2 : ℤ).tmod 7) = 4 := by decide
    have e3 : ((66 * 3 : ℤ).tmod 5) = 3 := by decide
    have e4 : ((66 * 2 : ℤ).tmod 7) = 6 := by decide
    simp only [App.encryptToTorus, List.map_cons, List.map_nil, e1, e2, e3, e4]
    norm_num [App.Point3.mk.injEq]
    ring_nf
    simp

/-- C2: for every text and integers `key`, `modVal ≥ 1`,
`encryptToPolynomial` returns one point per character, the `i`-th built
from code `c` as `z = (re = c, im = (c·key) mod modVal)`,
`w = sqrt(z³ − 1)` via the complex primitive's `pow 3`, `sub` and `sqrt`,
output `(z.re·0.05, z.im·0.05, w.re·0.05)`; and on `text = "Z"` (code 90)
with `key = 1, modVal = 2` the output point is
`(90·0.05, 0, sqrt 728999 · 0.05)` exactly (so within any tolerance). -/
theorem c2_polynomial_pointwise_formula :
    (∀ (text : List ℤ) (key modVal : ℤ), 1 ≤ modVal →
      (App.encryptToPolynomial text key modVal).length = text.length ∧
      ∀ i (hi : i < text.length),
        (App.encryptToPolynomial text key modVal)[i]? =
          some (let z : App.Complex :=
                  ⟨(text[i] : ℝ), (((text[i] * key).tmod modVal : ℤ) : ℝ)⟩
                let w : App.Complex := ((z.pow 3).sub ⟨1, 0⟩).sqrt
                { x := z.re * 0.05, y := z.im * 0.05, z := w.re * 0.05 })) ∧
    App.encryptToPolynomial [90] 1 2 = [⟨90 * 0.05, 0, Real.sqrt 728999 * 0.05⟩] := by
  constructor
  · intro text key modVal hm
    constructor
    · simp [App.encryptToPolynomial]
    · intro i hi
      rw [App.encryptToPolynomial]
      simp only [List.getElem?_map, List.getElem?_eq_getElem hi, Option.map_some']
  · have e : ((90 * 1 : ℤ).tmod 2) = 0 := by decide
    have hpow : App.Complex.pow ⟨(90 : ℝ), 0⟩ 3 = ⟨729000, 0⟩ := by
      have h3 : App.Complex.pow ⟨(90 : ℝ), 0⟩ 3 =
          (((App.Complex.mk 1 0).mul ⟨90, 0⟩).mul ⟨90, 0⟩).mul ⟨90, 0⟩ := rfl
      rw [h3, App.Complex.mul, App.Complex.mul, App.Complex.mul]
      norm_num
    have hsub : (App.Complex.mk 729000 0).sub ⟨1, 0⟩ = ⟨728999, 0⟩ := by
      rw [App.Complex.sub]
      norm_num
    simp only [App.encryptToPolynomial, List.map_cons, List.map_nil, e,
      Int.cast_zero, Int.cast_ofNat]
    norm_num [hpow, hsub, app_sqrt_nonneg_real 728999 (by norm_num)]

/-- C3: for every non-empty text and keys with `mod1, mod2 ≥ 1`,
`encryptToTorus` returns `text.length` points, each lying in the torus's
radial band `(R−r)² ≤ x² + y² ≤ (R+r)²` with `|z| ≤ r`, for `R = 3`,
`r = 1`. -/
theorem c3_torus_band (text : List ℤ) (key1 mod1 key2 mod2 : ℤ)
    (hne : text ≠ []) (h1 : 1 ≤ mod1) (h2 : 1 ≤ mod2) :
    (App.encryptToTorus text key1 mod1 key2 mod2).length = text.length ∧
    ∀ p ∈ App.encryptToTorus text key1 mod1 key2 mod2,
      ((3 : ℝ) - 1) ^ 2 ≤ p.x ^ 2 + p.y ^ 2 ∧
        p.x ^ 2 + p.y ^ 2 ≤ ((3 : ℝ) + 1) ^ 2 ∧ |p.z| ≤ 1 := by
  constructor
  · simp [App.encryptToTorus]
  · intro p hp
    rw [App.encryptToTorus] at hp
    simp only [List.mem_map] at hp
    obtain ⟨c, hc, rfl⟩ := hp
    set θ : ℝ := (((c * key1).tmod mod1 : ℤ) : ℝ) / (mod1 : ℝ) * 2 * Real.pi with hθ
    set φ : ℝ := (((c * key2).tmod mod2 : ℤ) : ℝ) / (mod2 : ℝ) * 2 * Real.pi with hφ
    have hpyth := Real.sin_sq_add_cos_sq θ
    have hφ1 := Real.neg_one_le_cos φ
    have hφ2 := Real.cos_le_one φ
    have key : ((3 + 1 * Real.cos φ) * Real.cos θ) ^ 2 +
        ((3 + 1 * Real.cos φ) * Real.sin θ) ^ 2 = (3 + Real.cos φ) ^ 2 := by
      linear_combination (3 + Real.cos φ) ^ 2 * hpyth
    refine ⟨?_, ?_, ?_⟩
    · show ((3 : ℝ) - 1) ^ 2 ≤
        ((3 + 1 * Real.cos φ) * Real.cos θ) ^ 2 + ((3 + 1 * Real.cos φ) * Real.sin θ) ^ 2
      rw [key]
      nlinarith [mul_nonneg (by linarith : (0 : ℝ) ≤ Real.cos φ + 1)
        (by linarith : (0 : ℝ) ≤ Real.cos φ + 5)]
    · show ((3 + 1 * Real.cos φ) * Real.cos θ) ^ 2 +
        ((3 + 1 * Real.cos φ) * Real.sin θ) ^ 2 ≤ ((3 : ℝ) + 1) ^ 2
      rw [key]
      nlinarith [mul_nonneg (by linarith : (0 : ℝ) ≤ 1 - Real.cos φ)
        (by linarith : (0 : ℝ) ≤ 7 + Real.cos φ)]
    · show |1 * Real.sin φ| ≤ 1
      rw [abs_le]
      exact ⟨by linarith [Real.neg_one_le_sin φ], by linarith [Real.sin_le_one φ]⟩

/-- Witness for C3 at the one-character text `[65]` with all parameters
satisfying the preconditions. -/
theorem c3_torus_band_witness :
    ([(65 : ℤ)] ≠ []) ∧ ((1 : ℤ) ≤ 5) ∧ ((1 : ℤ) ≤ 7) ∧
    ((App.encryptToTorus [65] 3 5 2 7).length = 1 ∧
      ∀ p ∈ App.encryptToTorus [65] 3 5 2 7,
        ((3 : ℝ) - 1) ^ 2 ≤ p.x ^ 2 + p.y ^ 2 ∧
          p.x ^ 2 + p.y ^ 2 ≤ ((3 : ℝ) + 1) ^ 2 ∧ |p.z| ≤ 1) :=
  ⟨by decide, by decide, by decide,
    c3_torus_band [65] 3 5 2 7 (by decide) (by decide) (by decide)⟩

/-- C4: for every complex value `z`, `Complex.sqrt z` has non-negative real
part (the principal branch is always selected), and squaring the result via
the source's `mul` recovers `z` — exactly, in the real-number semantics, so
in particular within any tolerance. -/
theorem c4_sqrt_principal_branch (z : App.Complex) :
    0 ≤ (App.Complex.sqrt z).re ∧
      (App.Complex.sqrt z).mul (App.Complex.sqrt z) = z := by
  have hsq := app_sqrt_eq z
  set w : Complex := ⟨z.re, z.im⟩ with hw
  set a : ℝ := Complex.abs w with ha
  set θ : ℝ := Complex.arg w with hθ
  have ha0 : 0 ≤ a := Complex.abs.nonneg w
  have hss : Real.sqrt a * Real.sqrt a = a := Real.mul_self_sqrt ha0
  have hpyth := Real.sin_sq_add_cos_sq (θ / 2)
  have h2 : 2 * (θ / 2) = θ := by ring
  have hcosθ : Real.cos θ = 2 * Real.cos (θ / 2) ^ 2 - 1 := by
    have h3 := Real.cos_two_mul (θ / 2)
    rw [h2] at h3
    exact h3
  have hsinθ : Real.sin θ = 2 * Real.sin (θ / 2) * Real.cos (θ / 2) := by
    have h3 := Real.sin_two_mul (θ / 2)
    rw [h2] at h3
    exact h3
  have hre : a * Real.cos θ = z.re := Complex.abs_mul_cos_arg w
  have him : a * Real.sin θ = z.im := Complex.abs_mul_sin_arg w
  constructor
  · rw [hsq]
    have hcos : 0 ≤ Real.cos (θ / 2) := by
      apply Real.cos_nonneg_of_mem_Icc
      constructor
      · have := Complex.neg_pi_lt_arg w
        rw [← hθ] at this
        linarith
      · have := Complex.arg_le_pi w
        rw [← hθ] at this
        linarith
    exact mul_nonneg (Real.sqrt_nonneg a) hcos
  · rw [hsq, App.Complex.mul]
    ext
    · show Real.sqrt a * Real.cos (θ / 2) * (Real.sqrt a * Real.cos (θ / 2)) -
        Real.sqrt a * Real.sin (θ / 2) * (Real.sqrt a * Real.sin (θ / 2)) = z.re
      rw [← hre, hcosθ]
      linear_combination
        (Real.cos (θ / 2) ^ 2 - Real.sin (θ / 2) ^ 2) * hss - a * hpyth
    · show Real.sqrt a * Real.cos (θ / 2) * (Real.sqrt a * Real.sin (θ / 2)) +
        Real.sqrt a * Real.sin (θ / 2) * (Real.sqrt a * Real.cos (θ / 2)) = z.im
      rw [← him, hsinθ]
      linear_combination (2 * Real.sin (θ / 2) * Real.cos (θ / 2)) * hss

/-- One pointer event preserves the clamp invariant on `rotX`. -/
lemma handleEvent_rotX_bound (s : App.OrbitState) (e : App.PointerEvent)
    (h : -(Real.pi / 2 - 0.1) ≤ s.rotX ∧ s.rotX ≤ Real.pi / 2 - 0.1) :
    -(Real.pi / 2 - 0.1) ≤ (App.handleEvent s e).rotX ∧
      (App.handleEvent s e).rotX ≤ Real.pi / 2 - 0.1 := by
  cases e with
  | down x y => simpa [App.handleEvent] using h
  | up => simpa [App.handleEvent] using h
  | leave => simpa [App.handleEvent] using h
  | move x y =>
    rw [App.handleEvent]
    by_cases hd : s.dragging
    · simp only [hd, if_true]
      constructor
      · exact le_max_left _ _
      · apply max_le
        · linarith [Real.pi_gt_three]
        · exact min_le_left _ _
    · simp only [hd, if_false]
      exact h

/-- Any sequence of pointer events preserves the clamp invariant. -/
lemma runEvents_rotX_bound (evs : List App.PointerEvent) (s : App.OrbitState)
    (h : -(Real.pi / 2 - 0.1) ≤ s.rotX ∧ s.rotX ≤ Real.pi / 2 - 0.1) :
    -(Real.pi / 2 - 0.1) ≤ (App.runEvents s evs).rotX ∧
      (App.runEvents s evs).rotX ≤ Real.pi / 2 - 0.1 := by
  induction evs generalizing s with
  | nil => exact h
  | cons e evs ih => exact ih (App.handleEvent s e) (handleEvent_rotX_bound s e h)

/-- C7: starting from the initial rotation state, every sequence of pointer
press/move/release/leave events keeps `rotX` in
`[-(π/2 - 0.1), π/2 - 0.1]`; a drag delta that would push `rotX` past the
limit pins it at exactly `π/2 - 0.1` (respectively `-(π/2 - 0.1)`); and
`rotY` is unbounded (for every bound some event sequence exceeds it). -/
theorem c7_orbit_clamp :
    (∀ evs : List App.PointerEvent,
      -(Real.pi / 2 - 0.1) ≤ (App.runEvents App.initOrbit evs).rotX ∧
        (App.runEvents App.initOrbit evs).rotX ≤ Real.pi / 2 - 0.1) ∧
    (∀ (s : App.OrbitState) (x y : ℝ), s.dragging = true →
      Real.pi / 2 - 0.1 ≤ s.rotX + (y - s.lastY) * 0.005 →
      (App.handleEvent s (.move x y)).rotX = Real.pi / 2 - 0.1) ∧
    (∀ (s : App.OrbitState) (x y : ℝ), s.dragging = true →
      s.rotX + (y - s.lastY) * 0.005 ≤ -(Real.pi / 2 - 0.1) →
      (App.handleEvent s (.move x y)).rotX = -(Real.pi / 2 - 0.1)) ∧
    (∀ B : ℝ, ∃ evs : List App.PointerEvent,
      B < (App.runEvents App.initOrbit evs).rotY) := by
  refine ⟨?_, ?_, ?_, ?_⟩
  · intro evs
    apply runEvents_rotX_bound
    constructor
    · show -(Real.pi / 2 - 0.1) ≤ (0.4 : ℝ)
      linarith [Real.pi_gt_three]
    · show (0.4 : ℝ) ≤ Real.pi / 2 - 0.1
      linarith [Real.pi_gt_three]
  · intro s x y hd hge
    rw [App.handleEvent]
    simp only [hd, if_true]
    show max (-(Real.pi / 2 - 0.1)) (min (Real.pi / 2 - 0.1) (s.rotX + (y - s.lastY) * 0.005)) =
      Real.pi / 2 - 0.1
    rw [min_eq_left hge]
    exact max_eq_right (by linarith [Real.pi_gt_three])
  · intro s x y hd hle
    rw [App.handleEvent]
    simp only [hd, if_true]
    show max (-(Real.pi / 2 - 0.1)) (min (Real.pi / 2 - 0.1) (s.rotX + (y - s.lastY) * 0.005)) =
      -(Real.pi / 2 - 0.1)
    rw [min_eq_right (by linarith [Real.pi_gt_three] : s.rotX + (y - s.lastY) * 0.005 ≤ Real.pi / 2 - 0.1)]
    exact max_eq_left hle
  · intro B
    refine ⟨[.down 0 0, .move (200 * B) 0], ?_⟩
    show B < (App.handleEvent (App.handleEvent App.initOrbit (.down 0 0)) (.move (200 * B) 0)).rotY
    rw [App.initOrbit, App.handleEvent, App.handleEvent]
    norm_num
    linarith

/-- C5: for the empty text and any parameters, both transforms return the
empty sequence (and, being total functions of their arguments, raise no
error). -/
theorem c5_empty_input (key1 mod1 key2 mod2 key modVal : ℤ) :
    App.encryptToTorus [] key1 mod1 key2 mod2 = [] ∧
      App.encryptToPolynomial [] key modVal = [] :=
  ⟨rfl, rfl⟩

/-- C6: both transforms are deterministic — two calls with identical
arguments (the embedded functions read nothing but their arguments, exactly
as the source functions touch no mutable state) return identical point
sequences. -/
theorem c6_determinism (t t' : List ℤ) (k1 k1' m1 m1' k2 k2' m2 m2' k k' m m' : ℤ)
    (ht : t = t') (hk1 : k1 = k1') (hm1 : m1 = m1') (hk2 : k2 = k2')
    (hm2 : m2 = m2') (hk : k = k') (hm : m = m') :
    App.encryptToTorus t k1 m1 k2 m2 = App.encryptToTorus t' k1' m1' k2' m2' ∧
      App.encryptToPolynomial t k m = App.encryptToPolynomial t' k' m' := by
  subst ht hk1 hm1 hk2 hm2 hk hm
  exact ⟨rfl, rfl⟩

/-- Witness for C6 at concrete identical arguments. -/
theorem c6_determinism_witness :
    App.encryptToTorus [72, 105] 3 5 2 7 = App.encryptToTorus [72, 105] 3 5 2 7 ∧
      App.encryptToPolynomial [72, 105] 1 2 = App.encryptToPolynomial [72, 105] 1 2 :=
  c6_determinism [72, 105] [72, 105] 3 3 5 5 2 2 7 7 1 1 2 2
    rfl rfl rfl rfl rfl rfl rfl

/-- C8 counterexample: at the concrete call
`updateVisualisation [72] 1 2 1 2 1 2 true true` (text `"H"`, default
parameters, both surfaces shown) the value returned to the caller is not a
`{characterCount, activeSurfaceNames}` summary — the function body has no
`return` statement, so nothing is returned. -/
theorem c8_no_summary_returned :
    ¬ ∃ s : App.StatusSummary,
      (App.updateVisualisation [72] 1 2 1 2 1 2 true true).2 = some s := by
  rintro ⟨s, hs⟩
  rw [App.updateVisualisation] at hs
  exact Option.noConfusion hs

/-- C8 amended: `updateVisualisation` pulls the current input, parameters
and visibility, regenerates both point sequences (each gated on its
visibility flag and on the text being non-empty), writes a status message
built from the character count and the active surface names to the status
element, and returns nothing to its caller. -/
theorem c8_update_writes_status (text : List ℤ)
    (key1 mod1 key2 mod2 key3 mod3 : ℤ) (st sc : Bool) :
    (App.updateVisualisation text key1 mod1 key2 mod2 key3 mod3 st sc).2 = none ∧
    (App.updateVisualisation text key1 mod1 key2 mod2 key3 mod3 st sc).1.torusData =
      (if st ∧ 0 < text.length then App.encryptToTorus text key1 mod1 key2 mod2 else []) ∧
    (App.updateVisualisation text key1 mod1 key2 mod2 key3 mod3 st sc).1.polyData =
      (if sc ∧ 0 < text.length then App.encryptToPolynomial text key3 mod3 else []) ∧
    (App.updateVisualisation text key1 mod1 key2 mod2 key3 mod3 st sc).1.statusText =
      (if 0 < text.length then
        "Encoded " ++ toString text.length ++ " character" ++
          (if text.length = 1 then "" else "s") ++ " on " ++
          String.intercalate " and "
            ((if st then ["torus"] else []) ++
              (if sc then ["polynomial surface"] else [])) ++ "."
      else "Enter some text and click \"Encrypt & Visualise\".") :=
  ⟨rfl, rfl, rfl, rfl⟩

/-- Reading `re` below the old length is unchanged by an allocation. -/
lemma reOf_append (h : App.Heap) (cell : ℝ × ℝ) (i : ℕ) (hi : i < h.length) :
    App.reOf (h ++ [cell]) i = App.reOf h i := by
  rw [App.reOf, App.reOf, List.getD_append _ _ _ _ hi]

/-- Reading `im` below the old length is unchanged by an allocation. -/
lemma imOf_append (h : App.Heap) (cell : ℝ × ℝ) (i : ℕ) (hi : i < h.length) :
    App.imOf (h ++ [cell]) i = App.imOf h i := by
  rw [App.imOf, App.imOf, List.getD_append _ _ _ _ hi]

/-- The `pow` loop never writes an existing cell. -/
lemma powLoop_pres (n : ℕ) : ∀ (h : App.Heap) (self result : App.Ref)
    (i : ℕ) (d : ℝ × ℝ), i < h.length →
    (App.HComplex.powLoop self h result n).1.getD i d = h.getD i d := by
  induction n with
  | zero => intro h self result i d _; rfl
  | succ n ih =>
    intro h self result i d hi
    show (App.HComplex.powLoop self (App.HComplex.mul h result self).1
      (App.HComplex.mul h result self).2 n).1.getD i d = h.getD i d
    rw [ih _ self _ i d (by simp [App.HComplex.mul, App.newComplex]; omega)]
    exact List.getD_append _ _ _ _ hi

/-- The `pow` loop only moves the result reference forward. -/
lemma powLoop_ref_ge (n : ℕ) : ∀ (h : App.Heap) (self result : App.Ref),
    result ≤ h.length → result ≤ (App.HComplex.powLoop self h result n).2 := by
  induction n with
  | zero => intro h self result _; exact le_refl result
  | succ n ih =>
    intro h self result hr
    show result ≤ (App.HComplex.powLoop self (App.HComplex.mul h result self).1
      (App.HComplex.mul h result self).2 n).2
    have h1 : (App.HComplex.mul h result self).2 = h.length := rfl
    have h2 : (App.HComplex.mul h result self).2 ≤
        (App.HComplex.mul h result self).1.length := by
      simp [App.HComplex.mul, App.newComplex]
    exact le_trans (hr.trans_eq h1.symm) (ih _ self _ h2)

/-- C9: every `Complex` operation (`add`, `sub`, `mul`, `pow`, `sqrt`), run
against the explicit object store, leaves the `re` and `im` fields of its
receiver and of its argument unchanged and hands back a freshly allocated
value (a reference at or past the old end of the store, so never an
existing object). -/
theorem c9_complex_ops_no_mutation (h : App.Heap) (self other : App.Ref)
    (n : ℕ) (hs : self < h.length) (ho : other < h.length) :
    (App.reOf (App.HComplex.add h self other).1 self = App.reOf h self ∧
      App.imOf (App.HComplex.add h self other).1 self = App.imOf h self ∧
      App.reOf (App.HComplex.add h self other).1 other = App.reOf h other ∧
      App.imOf (App.HComplex.add h self other).1 other = App.imOf h other ∧
      h.length ≤ (App.HComplex.add h self other).2) ∧
    (App.reOf (App.HComplex.sub h self other).1 self = App.reOf h self ∧
      App.imOf (App.HComplex.sub h self other).1 self = App.imOf h self ∧
      App.reOf (App.HComplex.sub h self other).1 other = App.reOf h other ∧
      App.imOf (App.HComplex.sub h self other).1 other = App.imOf h other ∧
      h.length ≤ (App.HComplex.sub h self other).2) ∧
    (App.reOf (App.HComplex.mul h self other).1 self = App.reOf h self ∧
      App.imOf (App.HComplex.mul h self other).1 self = App.imOf h self ∧
      App.reOf (App.HComplex.mul h self other).1 other = App.reOf h other ∧
      App.imOf (App.HComplex.mul h self other).1 other = App.imOf h other ∧
      h.length ≤ (App.HComplex.mul h self other).2) ∧
    (App.reOf (App.HComplex.pow h self n).1 self = App.reOf h self ∧
      App.imOf (App.HComplex.pow h self n).1 self = App.imOf h self ∧
      h.length ≤ (App.HComplex.pow h self n).2) ∧
    (App.reOf (App.HComplex.sqrt h self).1 self = App.reOf h self ∧
      App.imOf (App.HComplex.sqrt h self).1 self = App.imOf h self ∧
      h.length ≤ (App.HComplex.sqrt h self).2) := by
  refine ⟨⟨?_, ?_, ?_, ?_, ?_⟩, ⟨?_, ?_, ?_, ?_, ?_⟩, ⟨?_, ?_, ?_, ?_, ?_⟩,
    ⟨?_, ?_, ?_⟩, ⟨?_, ?_, ?_⟩⟩
  · exact reOf_append h _ self hs
  · exact imOf_append h _ self hs
  · exact reOf_append h _ other ho
  · exact imOf_append h _ other ho
  · exact le_refl _
  · exact reOf_append h _ self hs
  · exact imOf_append h _ self hs
  · exact reOf_append h _ other ho
  · exact imOf_append h _ other ho
  · exact le_refl _
  · exact reOf_append h _ self hs
  · exact imOf_append h _ self hs
  · exact reOf_append h _ other ho
  · exact imOf_append h _ other ho
  · exact le_refl _
  · show App.reOf (App.HComplex.powLoop self (App.newComplex h 1 0).1
      (App.newComplex h 1 0).2 n).1 self = App.reOf h self
    have hlen : self < (App.newComplex h 1 0).1.length := by
      have he : (App.newComplex h 1 0).1.length = h.length + 1 := by
        rw [App.newComplex]
        simp
      rw [he]
      exact Nat.lt_succ_of_lt hs
    rw [App.reOf, App.reOf, powLoop_pres n (App.newComplex h 1 0).1 self
      (App.newComplex h 1 0).2 self (0, 0) hlen]
    exact congrArg Prod.fst (List.getD_append _ _ _ _ hs)
  · show App.imOf (App.HComplex.powLoop self (App.newComplex h 1 0).1
      (App.newComplex h 1 0).2 n).1 self = App.imOf h self
    have hlen : self < (App.newComplex h 1 0).1.length := by
      have he : (App.newComplex h 1 0).1.length = h.length + 1 := by
        rw [App.newComplex]
        simp
      rw [he]
      exact Nat.lt_succ_of_lt hs
    rw [App.imOf, App.imOf, powLoop_pres n (App.newComplex h 1 0).1 self
      (App.newComplex h 1 0).2 self (0, 0) hlen]
    exact congrArg Prod.snd (List.getD_append _ _ _ _ hs)
  · show h.length ≤ (App.HComplex.powLoop self (App.newComplex h 1 0).1
      (App.newComplex h 1 0).2 n).2
    exact powLoop_ref_ge n _ self _ (by simp [App.newComplex])
  · exact reOf_append h _ self hs
  · exact imOf_append h _ self hs
  · exact le_refl _

/-- Witness for C9 on a concrete two-object store. -/
theorem c9_complex_ops_no_mutation_witness :
    ((0 : ℕ) < ([((1 : ℝ), (2 : ℝ)), (3, 4)] : App.Heap).length) ∧
    ((1 : ℕ) < ([((1 : ℝ), (2 : ℝ)), (3, 4)] : App.Heap).length) ∧
    (App.reOf (App.HComplex.add [((1 : ℝ), (2 : ℝ)), (3, 4)] 0 1).1 0 =
        App.reOf [((1 : ℝ), (2 : ℝ)), (3, 4)] 0 ∧
      App.imOf (App.HComplex.add [((1 : ℝ), (2 : ℝ)), (3, 4)] 0 1).1 0 =
        App.imOf [((1 : ℝ), (2 : ℝ)), (3, 4)] 0 ∧
      App.reOf (App.HComplex.add [((1 : ℝ), (2 : ℝ)), (3, 4)] 0 1).1 1 =
        App.reOf [((1 : ℝ), (2 : ℝ)), (3, 4)] 1 ∧
      App.imOf (App.HComplex.add [((1 : ℝ), (2 : ℝ)), (3, 4)] 0 1).1 1 =
        App.imOf [((1 : ℝ), (2 : ℝ)), (3, 4)] 1 ∧
      ([((1 : ℝ), (2 : ℝ)), (3, 4)] : App.Heap).length ≤
        (App.HComplex.add [((1 : ℝ), (2 : ℝ)), (3, 4)] 0 1).2) :=
  ⟨by decide, by decide,
    (c9_complex_ops_no_mutation [((1 : ℝ), (2 : ℝ)), (3, 4)] 0 1 3
      (by decide) (by decide)).1⟩

/-- C10: for every text and all integer parameters — the moduli included,
with no positivity restriction, so a modulus of `0` is covered — both
transforms are total functions (they cannot throw) and return a sequence of
exactly `text.length` points. -/
theorem c10_total_length (text : List ℤ) (key1 mod1 key2 mod2 key modVal : ℤ) :
    (App.encryptToTorus text key1 mod1 key2 mod2).length = text.length ∧
      (App.encryptToPolynomial text key modVal).length = text.length := by
  constructor
  · rw [App.encryptToTorus]
    exact List.length_map _ _
  · rw [App.encryptToPolynomial]
    exact List.length_map _ _
